import Mathlib

/-!
Verification of the skilltri job-discovery and skill-to-course matching
pipeline (a TypeScript/Next.js repository) against its natural-language
specification.

Modelling conventions (shallow embedding):
* A JavaScript string is modelled as a `List Nat` of Unicode code points
  (`JSStr`); `codes` converts a Lean string literal to this form.
* `String.prototype.toLowerCase` is modelled on the ASCII range
  (`jsLower`): code points 65–90 map to 97–122, all others are unchanged.
  The Korean characters appearing in the sources are fixed points of
  `toLowerCase`, so this agrees with JavaScript on all inputs the code
  manipulates.
* JavaScript regular-expression operations used by the sources are
  implemented as explicit scanners over code-point lists.
* Network calls, the DOM parser and the LLM are external collaborators:
  functions take their responses as parameters (page HTML, per-page stub
  counts, the model's JSON payload, the course rows returned by the
  database RPC).
-/

namespace Skilltri


/-- A JavaScript string, as its list of Unicode code points. -/
abbrev JSStr := List Nat

/-- Code points of a Lean string literal, used to write concrete inputs. -/
def codes (s : String) : JSStr := s.data.map Char.toNat

/-- `String.prototype.toLowerCase`, modelled on the ASCII range:
uppercase A–Z (65–90) maps to a–z (97–122), all else is unchanged. -/
def jsLower (c : Nat) : Nat := if 65 ≤ c ∧ c ≤ 90 then c + 32 else c

/-- `s.toLowerCase()` character by character. -/
def lowerStr (l : JSStr) : JSStr := l.map jsLower

/-- The JavaScript regexp `\s` character class (whitespace). -/
def isJsWs (c : Nat) : Bool :=
  c = 32 || c = 9 || c = 10 || c = 11 || c = 12 || c = 13 ||
  c = 160 || c = 0x1680 || (0x2000 ≤ c && c ≤ 0x200A) ||
  c = 0x2028 || c = 0x2029 || c = 0x202F || c = 0x205F ||
  c = 0x3000 || c = 0xFEFF

/-- `needle.isPrefixOf hay`-style substring test: does `needle` occur
contiguously inside `hay`?  Implements `String.prototype.includes` /
an unanchored regexp literal. -/
def strIncludes (hay needle : JSStr) : Bool :=
  needle.isPrefixOf hay ||
  match hay with
  | [] => false
  | _ :: t => strIncludes t needle

/-- Anchored-at-end substring test (`/foo$/.test(hay)`). -/
def strEndsWith (hay needle : JSStr) : Bool :=
  needle.reverse.isPrefixOf hay.reverse

/-! ## Company-name normalization (`src/lib/saramin.ts`, `normalize`)

`const normalize = (name) => name.toLowerCase().replace(/[()주식회사㈜\s]/g, "")`:
lower-case, then delete every parenthesis, every character of the
legal-entity marker 주식회사, the symbol ㈜, and all whitespace. -/
/-- The characters deleted by the company-name normalizer: `(`, `)`,
the four syllables of 주식회사, `㈜`, and JS whitespace. -/
def isCompanyStrip (c : Nat) : Bool :=
  (codes "()주식회사㈜").contains c || isJsWs c

/-- `normalize` from `findCompanyCode` / `searchSaraminFallback` in
`src/lib/saramin.ts`. -/
def saraminNormalize (l : JSStr) : JSStr :=
  (l.map jsLower).filter (fun c => !isCompanyStrip c)

/-! ## Listing pagination (`src/lib/saramin.ts`, `crawlCompanyJobs`)

The loop `for (let page = 1; page <= maxPages; page++)` with
`maxPages = 20` fetches page after page; `stubs p` is the number of
postings `parseJobsFromHtml` produced for page `p`.  The loop breaks
when a page yields `0` stubs, and also (after accumulating) when it
yields fewer than `5`. -/
/-- One step per fetched page; returns the index of the last page
fetched.  `fuel` counts the remaining loop iterations, `p` is the
current page; with `fuel = 20, p = 1` this is exactly the source loop
(`p - 1` on exhausted fuel = `maxPages` when no break fired). -/
def crawlGo (stubs : Nat → Nat) : Nat → Nat → Nat
  | 0, p => p - 1
  | fuel + 1, p =>
    if stubs p = 0 then p
    else if stubs p < 5 then p
    else crawlGo stubs fuel (p + 1)

/-- Number of pages `crawlCompanyJobs` fetches, given the per-page
parsed stub counts. -/
def crawlPagesFetched (stubs : Nat → Nat) : Nat := crawlGo stubs 20 1

/-! ## Skill Extractor post-processing (`src/lib/openai.ts`)

`parseJobWithAI` feeds the extracted posting text to the model and then
normalizes the returned `skills` / `preferredSkills` arrays with
`normalizeSkills`.  The model call and `JSON.parse` are external: their
outcome is a parameter (`LLMOutcome`), and the extracted text (produced
by the cheerio-based `extractTextFromHtml`) is a parameter as well. -/
/-- `SkillItem` from `src/lib/openai.ts`: display label, canonical
keyword, relevance score. -/
structure SkillItem where
  display : JSStr
  keyword : JSStr
  relevance : Int
  deriving DecidableEq

/-- One element of the model's `skills`/`preferredSkills` arrays:
either a bare string (legacy shape) or a structured object whose three
fields may each be absent. -/
inductive RawSkill where
  | str (s : JSStr)
  | obj (display : Option JSStr) (keyword : Option JSStr) (relevance : Option Int)
  deriving DecidableEq

/-- A `skills` field of the parsed JSON: either not an array
(`Array.isArray` fails) or a list of entries. -/
inductive SkillsField where
  | notArray
  | arr (items : List RawSkill)
  deriving DecidableEq

/-- JS `a || b` on an optional string: the empty string is falsy. -/
def jsOrStr (a : Option JSStr) (b : JSStr) : JSStr :=
  match a with
  | none => b
  | some s => if s = [] then b else s

/-- JS `obj.relevance || 50`: an absent or zero relevance becomes 50. -/
def jsOrRel (r : Option Int) : Int :=
  match r with
  | none => 50
  | some v => if v = 0 then 50 else v

/-- `s.toLowerCase().replace(/[\s.]/g, '')`: derive the canonical
keyword from a display string (code point 46 is `.`). -/
def deriveKeyword (s : JSStr) : JSStr :=
  (s.map jsLower).filter (fun c => !(isJsWs c || c = 46))

/-- The `.map` step of `normalizeSkills`: coerce one raw entry to a
`SkillItem`. -/
def normalizeOne : RawSkill → SkillItem
  | .str s => { display := s, keyword := deriveKeyword s, relevance := 50 }
  | .obj d k r =>
      { display := jsOrStr d (jsOrStr k []),
        keyword := deriveKeyword (jsOrStr k (jsOrStr d [])),
        relevance := jsOrRel r }

/-- Stable insertion for the relevance-descending sort
(`.sort((a, b) => b.relevance - a.relevance)`): an element passes every
strictly more relevant element and stops in front of the first element
that is at most as relevant, so equal-relevance items keep their
original order. -/
def insertByRel (x : SkillItem) : List SkillItem → List SkillItem
  | [] => [x]
  | y :: ys => if x.relevance < y.relevance then y :: insertByRel x ys
               else x :: y :: ys

/-- Stable sort by relevance, descending. -/
def sortByRelDesc (l : List SkillItem) : List SkillItem :=
  l.foldr insertByRel []

/-- The pool-membership filter `!keywordPool || keywordPool.includes(kw)`:
`none` models an absent pool (filter passes), `some ps` a supplied pool
(note a supplied-but-empty array is truthy in JS, so it rejects
everything). -/
def poolFilter (pool : Option (List JSStr)) (kw : JSStr) : Bool :=
  match pool with
  | none => true
  | some ps => ps.any (fun k => k = kw)

/-- `normalizeSkills` from `parseJobWithAI` (src/lib/openai.ts:154-171):
coerce entries, keep only items with a non-empty keyword and relevance
at least 50, keep only pool keywords when a pool was supplied, then
sort by relevance descending. -/
def normalizeSkills (pool : Option (List JSStr)) : SkillsField → List SkillItem
  | .notArray => []
  | .arr items =>
      sortByRelDesc
        (((items.map normalizeOne).filter
            (fun s => decide (s.keyword ≠ []) && decide (50 ≤ s.relevance))).filter
          (fun s => poolFilter pool s.keyword))

/-- `parsed.summary || undefined`: an absent or empty summary string
becomes `undefined`. -/
def jsStrOrUndef (o : Option JSStr) : Option JSStr :=
  match o with
  | none => none
  | some s => if s = [] then none else some s

/-- Outcome of the model call inside `parseJobWithAI`: the call or
`JSON.parse` threw; the response had no content
(`response.choices[0]?.message?.content` falsy); or a JSON payload was
parsed, with its `skills` / `preferredSkills` / `summary` fields. -/
inductive LLMOutcome where
  | fail
  | emptyContent
  | parsed (skills preferredSkills : SkillsField) (summary : Option JSStr)
  deriving DecidableEq

/-- `JobDetailParsed` from `src/lib/openai.ts`. -/
structure JobDetailParsed where
  skills : List SkillItem
  preferredSkills : List SkillItem
  summary : Option JSStr
  isExternal : Option Bool
  externalUrl : Option JSStr
  rawContent : Option JSStr
  deriving DecidableEq

/-- `parseJobWithAI` (src/lib/openai.ts:66-188) given the already
extracted posting text (`extractTextFromHtml` output), the keyword pool
and the model-call outcome.  `!text || text.length < 100` collapses to
the length test since the empty string has length `0`. -/
def parseJobWithAI (text : JSStr) (pool : Option (List JSStr))
    (outcome : LLMOutcome) : JobDetailParsed :=
  if text.length < 100 then
    { skills := [], preferredSkills := [], summary := none,
      isExternal := none, externalUrl := none, rawContent := some text }
  else
    match outcome with
    | .fail =>
        { skills := [], preferredSkills := [], summary := none,
          isExternal := none, externalUrl := none, rawContent := some text }
    | .emptyContent =>
        { skills := [], preferredSkills := [], summary := none,
          isExternal := none, externalUrl := none, rawContent := none }
    | .parsed sk pf summary =>
        { skills := normalizeSkills pool sk,
          preferredSkills := normalizeSkills pool pf,
          summary := jsStrOrUndef summary,
          isExternal := none, externalUrl := none, rawContent := some text }

/-! ## Title similarity scoring (`calculateSimilarity`, Jina helper module)

`calculateSimilarity(searchTitle, linkTitle)` normalizes both titles
(lower-case, drop `(...)` groups, drop characters outside
`\w`/whitespace/Hangul, trim), returns 1.0 on exact normalized match,
0 when some search token (length > 1) matches no link token under
two-way `includes`, and otherwise the difference of the two word
counts determines `max(0.1, 0.9 - 0.15 * wordCountDiff)`. -/
/-- The `\w` regexp class: ASCII letters, digits, underscore. -/
def isWordCp (c : Nat) : Bool :=
  (97 ≤ c && c ≤ 122) || (65 ≤ c && c ≤ 90) || (48 ≤ c && c ≤ 57) || c = 95

/-- The `가-힣` regexp range of precomposed Hangul syllables. -/
def isHangul (c : Nat) : Bool := 0xAC00 ≤ c && c ≤ 0xD7A3

/-- Characters kept by `.replace(/[^\w\s가-힣]/g, "")`. -/
def keepTitleCp (c : Nat) : Bool := isWordCp c || isJsWs c || isHangul c

/-- `.replace(/\([^)]*\)/g, "")`: delete every `(`-to-next-`)` group;
a `(` with no later `)` is kept.  `fuel` bounds the recursion (the list
shrinks by at least one per step, so `l.length` fuel suffices); code
points 40/41 are `(` and `)`. -/
def stripParensAux : Nat → JSStr → JSStr
  | _, [] => []
  | 0, l => l
  | fuel + 1, c :: rest =>
    if c = 40 then
      match rest.dropWhile (fun d => d != 41) with
      | [] => c :: stripParensAux fuel rest
      | _ :: tl => stripParensAux fuel tl
    else c :: stripParensAux fuel rest

def stripParens (l : JSStr) : JSStr := stripParensAux l.length l

/-- `String.prototype.trim`. -/
def jsTrim (l : JSStr) : JSStr :=
  ((l.dropWhile isJsWs).reverse.dropWhile isJsWs).reverse

/-- The `normalize` closure inside `calculateSimilarity`. -/
def normalizeTitle (l : JSStr) : JSStr :=
  jsTrim ((stripParens (l.map jsLower)).filter keepTitleCp)

/-- `.split(/\s+/)` restricted to the non-empty pieces: the maximal
whitespace-free runs.  (The one empty piece `"".split(/\s+/)` produces,
and a leading empty piece, are discarded by the length > 1 token filter
either way.) -/
def splitWsAux : JSStr → JSStr → List JSStr
  | [], acc => if acc = [] then [] else [acc.reverse]
  | c :: rest, acc =>
    if isJsWs c then
      if acc = [] then splitWsAux rest []
      else acc.reverse :: splitWsAux rest []
    else splitWsAux rest (c :: acc)

def splitWs (l : JSStr) : List JSStr := splitWsAux l []

/-- `normalized.split(/\s+/).filter(w => w.length > 1)`. -/
def titleWords (n : JSStr) : List JSStr :=
  (splitWs n).filter (fun w => 1 < w.length)

/-- `word.includes(keyword) || keyword.includes(word)`. -/
def tokenMatch (word keyword : JSStr) : Bool :=
  strIncludes word keyword || strIncludes keyword word

/-- `calculateSimilarity` (Jina helper module of the repository,
bundled at src/app/api/job-with-courses/route.ts:761-795). -/
def calculateSimilarity (searchTitle linkTitle : JSStr) : ℚ :=
  let ns := normalizeTitle searchTitle
  let nl := normalizeTitle linkTitle
  if ns = nl then 1
  else
    let sw := titleWords ns
    let lw := titleWords nl
    if sw.all (fun k => lw.any (fun w => tokenMatch w k)) then
      max (1/10) (9/10 - (15/100) * ((((sw.length : ℤ) - (lw.length : ℤ)).natAbs : ℚ)))
    else 0

/-! ## External-Site Detector (`src/lib/saramin.ts`,
`checkIfExternalCompany` / `extractExternalUrl`) and the listing-path
decision of `searchCompanyJobs`.

A fetched posting page is modelled as its raw markup plus the result of
the one cheerio selector the code uses
(`$('.jv_howto a[data-href]').attr('data-href')`). -/
/-- A fetched aggregator posting page. -/
structure HtmlPage where
  raw : JSStr
  howtoDataHref : Option JSStr
  deriving DecidableEq

/-- The third marker, `Saramin.btnJob('homepage'`, written with
explicit apostrophes (code point 39). -/
def markerBtnJobSingleQuote : JSStr :=
  codes "Saramin.btnJob(" ++ [39] ++ codes "homepage" ++ [39]

/-- The "apply via homepage" marker scan of `checkIfExternalCompany`
(src/lib/saramin.ts:267-269). -/
def hasExternalMarkers (html : JSStr) : Bool :=
  strIncludes html (codes "title=\"홈페이지 지원\"") ||
  strIncludes html (codes "Saramin.btnJob(\"homepage\"") ||
  strIncludes html markerBtnJobSingleQuote

/-- Match `(https?:\/\/[^"]+)"` at the current position: a scheme, then
at least one non-quote character, then a closing quote (code point 34). -/
def captureSchemeUrl (scheme rest : JSStr) : Option JSStr :=
  let body := rest.takeWhile (fun c => c != 34)
  let tail := rest.dropWhile (fun c => c != 34)
  match body, tail with
  | [], _ => none
  | _, [] => none
  | b, _ :: _ => some (scheme ++ b)

def tryCaptureUrl (l : JSStr) : Option JSStr :=
  if (codes "https://").isPrefixOf l then
    captureSchemeUrl (codes "https://") (l.drop 8)
  else if (codes "http://").isPrefixOf l then
    captureSchemeUrl (codes "http://") (l.drop 7)
  else none

/-- First match of `/data-href="(https?:\/\/[^"]+)"/` in the document
(`data-href="` is 11 characters). -/
def scanDataHref : JSStr → Option JSStr
  | [] => none
  | c :: rest =>
    if (codes "data-href=\"").isPrefixOf (c :: rest) then
      match tryCaptureUrl ((c :: rest).drop 11) with
      | some url => some url
      | none => scanDataHref rest
    else scanDataHref rest

/-- `extractExternalUrl` (src/lib/saramin.ts:440-458): prefer the
`.jv_howto` anchor's `data-href` when it starts with `http`, otherwise
fall back to a regex scan over the raw markup. -/
def extractExternalUrl (page : HtmlPage) : Option JSStr :=
  match page.howtoDataHref with
  | some link =>
      if link ≠ [] ∧ (codes "http").isPrefixOf link then some link
      else scanDataHref page.raw
  | none => scanDataHref page.raw

/-- The fetched-page core of `checkIfExternalCompany`
(src/lib/saramin.ts:251-287): markers absent means
`{isExternal: false, externalUrl: null}`; markers present means
`{isExternal: true, externalUrl: extractExternalUrl(html)}`. -/
def checkIfExternalCompany (page : HtmlPage) : Bool × Option JSStr :=
  if hasExternalMarkers page.raw then (true, extractExternalUrl page)
  else (false, none)

/-- JS truthiness of a `string | null` value (empty string is falsy). -/
def jsTruthyOptStr (o : Option JSStr) : Bool :=
  match o with
  | none => false
  | some s => s ≠ []

/-- What `searchCompanyJobs` decides and reports from the sample
posting's detector result. -/
structure SearchDecision where
  usedExternalListingPath : Bool
  reportedIsExternal : Bool
  reportedExternalUrl : Option JSStr
  deriving DecidableEq

/-- The Step 3 / Step 4 decision slice of `searchCompanyJobs`
(src/lib/saramin.ts:666-762): the external listing path runs only under
`if (isExternal && externalUrl)`; otherwise the aggregator (internal)
path runs; and the final result reports `isExternal: isExternal` and
`externalUrl: externalUrl || undefined` as produced by the detector. -/
def searchDecision (page : HtmlPage) : SearchDecision :=
  let r := checkIfExternalCompany page
  { usedExternalListingPath := r.1 && jsTruthyOptStr r.2,
    reportedIsExternal := r.1,
    reportedExternalUrl :=
      match r.2 with
      | none => none
      | some s => if s = [] then none else some s }

/-! ## Sitemap URL classifier (`isJobUrl`, sitemap module at
src/unnamed/part_005:92-125)

All patterns carry the `/i` flag, so the URL is lower-cased once and the
patterns are matched in lower case.  The anchored patterns have the
shape `/<segment>/<run>/?$`; a regex match of that shape exists exactly
when, after removing at most one trailing `/`, the maximal run of
allowed characters at the end of the URL is non-empty and is preceded
by the literal `/<segment>/` (the character before the run must be `/`,
which forces the run to be maximal). -/
/-- The `[\w-]` class of the posting-URL patterns. -/
def wordHy (c : Nat) : Bool := isWordCp c || c = 45

/-- The `[a-z]` class of the `/career/[a-z]+` exclusion (on the
lower-cased URL). -/
def isLowerAl (c : Nat) : Bool := 97 ≤ c && c ≤ 122

/-- Remove one trailing `/` (code point 47) if present; `r` is the
reversed URL, so this is its head. -/
def stripTrailSlash (r : JSStr) : JSStr :=
  match r with
  | [] => []
  | c :: t => if c = 47 then t else c :: t

/-- Match `/<alt><run>/?$` on the reversed URL `r`: after removing at
most one trailing slash, a non-empty maximal run of `runPred`
characters, preceded by one of the (forward, lower-case) literals in
`alts`. -/
def endSegMatch (r : JSStr) (runPred : Nat → Bool) (alts : List JSStr) : Bool :=
  ((stripTrailSlash r).takeWhile runPred ≠ [] : Bool) &&
  alts.any (fun a => a.reverse.isPrefixOf ((stripTrailSlash r).dropWhile runPred))

/-- The leading literals of the seven posting-URL patterns
(`/jobs?/`, `/position/`, `/job-detail/`, `/opening/`, `/vacancy/`,
`/careers?/jobs?/`, `/recruit/`), alternation expanded. -/
def jobPatternAlts : List JSStr :=
  [codes "/job/", codes "/jobs/", codes "/position/", codes "/job-detail/",
   codes "/opening/", codes "/vacancy/", codes "/career/job/",
   codes "/career/jobs/", codes "/careers/job/", codes "/careers/jobs/",
   codes "/recruit/"]

/-- `jobPatterns.some(p => p.test(url))` on the lower-cased URL. -/
def matchesJobPattern (l : JSStr) : Bool :=
  endSegMatch l.reverse wordHy jobPatternAlts

/-- Disjunction of anchored literal-ending tests. -/
def endsWithAny (l : JSStr) (alts : List JSStr) : Bool :=
  alts.any (fun a => strEndsWith l a)

/-- `excludePatterns.some(p => p.test(url))` on the lower-cased URL:
`/career/[a-z]+/?$`, the bare listing endings, any query string
(`?` is code point 63), and the fixed substrings. -/
def matchesExcludePattern (l : JSStr) : Bool :=
  endSegMatch l.reverse isLowerAl [codes "/career/"] ||
  endsWithAny l [codes "/career", codes "/careers",
                 codes "/career/", codes "/careers/"] ||
  endsWithAny l [codes "/job", codes "/jobs", codes "/job/", codes "/jobs/"] ||
  endsWithAny l [codes "/position", codes "/positions",
                 codes "/position/", codes "/positions/"] ||
  l.any (fun c => c == 63) ||
  strIncludes l (codes "/blog/") || strIncludes l (codes "/news/") ||
  strIncludes l (codes "/about") || strIncludes l (codes "/contact") ||
  strIncludes l (codes "/faq") || strIncludes l (codes "/privacy") ||
  strIncludes l (codes "/terms") || strIncludes l (codes "sitemap")

/-- `isJobUrl` (sitemap module): a posting URL must match one of the
posting patterns and none of the exclusion patterns. -/
def isJobUrl (url : JSStr) : Bool :=
  matchesJobPattern (url.map jsLower) && !matchesExcludePattern (url.map jsLower)

/-! ## Course Matcher (`matchCoursesForSkills`,
src/unnamed/part_000:120-171)

The DB rows returned by `findCoursesByKeywords` are a parameter
(`allCourses`); the `courses` table has `id BIGSERIAL PRIMARY KEY`, so
row ids are pairwise distinct, which C2 takes as a hypothesis.
JS `Map.set` / object-key assignment are modelled by `jsMapSet` on
association lists: replace the value of an existing key in place,
otherwise append; `Map.get` / key lookup is `List.lookup`. -/
/-- A course row (`CourseWithMatchCount`): only the fields the matcher
reads. -/
structure Course where
  id : Nat
  title : JSStr
  keywords : List JSStr
  deriving DecidableEq

/-- JS `Map.set` / object-key assignment on an association list:
overwrite in place, or append a new entry. -/
def jsMapSet {α β : Type} [BEq α] (m : List (α × β)) (k : α) (v : β) :
    List (α × β) :=
  if (m.lookup k).isSome then
    m.map (fun p => if p.1 == k then (k, v) else p)
  else m ++ [(k, v)]

/-- `course.keywords.some(kw => kw.toLowerCase() === skill.keyword)`. -/
def courseHasKeyword (course : Course) (skill : SkillItem) : Bool :=
  course.keywords.any (fun kw => lowerStr kw = skill.keyword)

/-- `matchingSkills.reduce((best, current) => (current.relevance || 0) >
(best.relevance || 0) ? current : best)`: JS `reduce` without an initial
value starts from the first element; `|| 0` is the identity on the
always-present integer relevance (0 is falsy and maps to 0). -/
def bestSkill : SkillItem → List SkillItem → SkillItem
  | best, [] => best
  | best, cur :: rest =>
      bestSkill (if best.relevance < cur.relevance then cur else best) rest

/-- The per-course ownership map entry: keyword and relevance of the
owning skill. -/
abbrev SkillAssign := List (Nat × (JSStr × Int))

/-- One iteration of the `for (const course of allCourses)` loop: find
the skills matching the course, pick the most relevant one, record it
for the course id (skipping courses matching no skill). -/
def assignCourse (skills : List SkillItem) (m : SkillAssign)
    (course : Course) : SkillAssign :=
  match skills.filter (fun s => courseHasKeyword course s) with
  | [] => m
  | s :: rest =>
      let best := bestSkill s rest
      jsMapSet m course.id (best.keyword, best.relevance)

/-- `courseToSkillMap` of `matchCoursesForSkills` (step 1). -/
def courseToSkillMap (skills : List SkillItem) (allCourses : List Course) :
    SkillAssign :=
  allCourses.foldl (assignCourse skills) []

/-- `assigned?.keyword === skill.keyword`: the course was assigned to
this keyword (an unassigned course compares `undefined` to a string,
which is false). -/
def assignedTo (m : SkillAssign) (kw : JSStr) (c : Course) : Bool :=
  match m.lookup c.id with
  | some e => e.1 = kw
  | none => false

/-- The `skillDisplay → CourseWithMatchCount[]` result object. -/
abbrev SkillCourses := List (JSStr × List Course)

/-- One iteration of the `for (const skill of skills)` loop (step 2):
courses assigned to this skill's keyword and not yet used, first 5
taken, their ids marked used, the list stored under the display name.
The state is `(usedCourseIds, result)`. -/
def matchStep (allCourses : List Course) (m : SkillAssign)
    (st : List Nat × SkillCourses) (skill : SkillItem) :
    List Nat × SkillCourses :=
  let matching := (allCourses.filter (assignedTo m skill.keyword)).filter
    (fun c => !(st.1.contains c.id))
  let selected := matching.take 5
  (st.1 ++ selected.map Course.id, jsMapSet st.2 skill.display selected)

/-- `matchCoursesForSkills(skills, usedCourseIds)` with the DB response
`allCourses` and the incoming shared used-set as parameters; returns
the updated used-set together with the result object. -/
def matchCoursesForSkills (skills : List SkillItem) (allCourses : List Course)
    (used : List Nat) : List Nat × SkillCourses :=
  if skills = [] then (used, [])
  else
    let m := courseToSkillMap skills allCourses
    skills.foldl (matchStep allCourses m) (used, [])

/-- The courses selected for one skill in one `matchStep` iteration. -/
def selCourses (allCourses : List Course) (m : SkillAssign)
    (st : List Nat × SkillCourses) (skill : SkillItem) : List Course :=
  ((allCourses.filter (assignedTo m skill.keyword)).filter
    (fun c => !(st.1.contains c.id))).take 5

/-- Invariant of the `(usedCourseIds, result)` state relative to the
used-set `used0` the pass started from: the incoming used ids stay
used; every id in the result is used; no id in the result was used at
entry; and lists under distinct display names have disjoint ids. -/
def StateInv (used0 : List Nat) (st : List Nat × SkillCourses) : Prop :=
  (∀ x ∈ used0, x ∈ st.1) ∧
  (∀ p ∈ st.2, ∀ c ∈ p.2, c.id ∈ st.1) ∧
  (∀ p ∈ st.2, ∀ c ∈ p.2, c.id ∉ used0) ∧
  (∀ p ∈ st.2, ∀ q ∈ st.2, p.1 ≠ q.1 → ∀ c ∈ p.2, ∀ d ∈ q.2, c.id ≠ d.id)

/-- The keyword of the skill that owns a course id, if any. -/
def ownerKeyword (m : SkillAssign) (id : Nat) : Option JSStr :=
  (m.lookup id).map Prod.fst

/-- Soundness of the ownership map: any recorded owner keyword comes
from a skill in the list whose keyword case-insensitively occurs in the
keyword list of a course of that id. -/
def OwnerSound (skills : List SkillItem) (ac : List Course)
    (m : SkillAssign) : Prop :=
  ∀ id kw, ownerKeyword m id = some kw →
    ∃ c' ∈ ac, c'.id = id ∧
      ∃ b ∈ skills, b.keyword = kw ∧ courseHasKeyword c' b = true

/-- Per-entry guarantees of the result object: at most five courses,
the display name comes from a skill of the pass, and every listed
course is a DB row owned by that skill's keyword. -/
def ResultOk (skills : List SkillItem) (m : SkillAssign) (ac : List Course)
    (r : SkillCourses) : Prop :=
  ∀ p ∈ r, p.2.length ≤ 5 ∧ ∃ s ∈ skills, s.display = p.1 ∧
    ∀ c ∈ p.2, c ∈ ac ∧ ownerKeyword m c.id = some s.keyword

theorem jsLower_idem (c : Nat) : jsLower (jsLower c) = jsLower c := by
  simp only [jsLower]; split_ifs <;> omega

theorem lowerStr_idem (l : JSStr) : lowerStr (lowerStr l) = lowerStr l := by
  simp only [lowerStr, List.map_map]
  exact List.map_congr_left fun c _ => jsLower_idem c

theorem map_eq_self_of_fix {α : Type} {f : α → α} :
    ∀ {l : List α}, (∀ c ∈ l, f c = c) → l.map f = l
  | [], _ => rfl
  | c :: t, h => by
    simp only [List.map_cons, h c (List.mem_cons_self c t),
      map_eq_self_of_fix fun d hd => h d (List.mem_cons_of_mem c hd)]

theorem saraminNormalize_mem {l : JSStr} {c : Nat}
    (h : c ∈ saraminNormalize l) : ∃ d ∈ l, c = jsLower d := by
  simp only [saraminNormalize, List.mem_filter, List.mem_map] at h
  obtain ⟨⟨d, hd, rfl⟩, -⟩ := h
  exact ⟨d, hd, rfl⟩

/-- C9: company-name normalization is idempotent:
`normalize(normalize(x)) == normalize(x)` for every input string,
in particular those containing legal-entity markers, parentheses or
whitespace. -/
theorem companyNormalize_idempotent (x : JSStr) :
    saraminNormalize (saraminNormalize x) = saraminNormalize x := by
  have hfix : ∀ c ∈ saraminNormalize x, jsLower c = c := by
    intro c hc
    obtain ⟨d, _, rfl⟩ := saraminNormalize_mem hc
    exact jsLower_idem d
  have hmap : (saraminNormalize x).map jsLower = saraminNormalize x :=
    map_eq_self_of_fix hfix
  simp only [saraminNormalize] at hmap ⊢
  rw [hmap, List.filter_filter]
  exact List.filter_congr fun c _ => by cases isCompanyStrip c <;> rfl

theorem crawlGo_le (stubs : Nat → Nat) (fuel p : Nat) (hp : 1 ≤ p) :
    crawlGo stubs fuel p ≤ fuel + p - 1 := by
  induction fuel generalizing p with
  | zero => simp [crawlGo]
  | succ n ih =>
    simp only [crawlGo]
    split_ifs with h0 h5
    · omega
    · omega
    · have := ih (p + 1) (by omega)
      omega

theorem crawlGo_ge (stubs : Nat → Nat) (fuel p : Nat) (hf : 1 ≤ fuel) :
    p ≤ crawlGo stubs fuel p := by
  induction fuel generalizing p with
  | zero => omega
  | succ n ih =>
    simp only [crawlGo]
    split_ifs with h0 h5
    · omega
    · omega
    · match n with
      | 0 => simp [crawlGo]
      | m + 1 =>
        have := ih (p + 1) (by omega)
        omega

theorem crawlGo_big (stubs : Nat → Nat) (fuel p : Nat) (hp : 1 ≤ p)
    (j : Nat) (hj1 : p ≤ j) (hj2 : j < crawlGo stubs fuel p) :
    5 ≤ stubs j := by
  induction fuel generalizing p with
  | zero => simp [crawlGo] at hj2; omega
  | succ n ih =>
    simp only [crawlGo] at hj2
    split_ifs at hj2 with h0 h5
    · omega
    · omega
    · rcases Nat.eq_or_lt_of_le hj1 with rfl | hlt
      · omega
      · exact ih (p + 1) (by omega) (by omega) hj2

theorem crawlGo_stop (stubs : Nat → Nat) (fuel p : Nat) (hp : 1 ≤ p)
    (h : crawlGo stubs fuel p < fuel + p - 1) :
    stubs (crawlGo stubs fuel p) < 5 := by
  induction fuel generalizing p with
  | zero => simp [crawlGo] at h
  | succ n ih =>
    by_cases h0 : stubs p = 0
    · simp only [crawlGo, if_pos h0]
      omega
    · by_cases h5 : stubs p < 5
      · simp only [crawlGo, if_neg h0, if_pos h5]
        exact h5
      · have hh : crawlGo stubs (n + 1) p = crawlGo stubs n (p + 1) := by
          simp [crawlGo, h0, h5]
        rw [hh] at h ⊢
        exact ih (p + 1) (by omega) (by omega)

/-- C7: pagination termination and stopping rule.  For every sequence of
per-page stub counts: at most 20 pages are fetched; every page strictly
before the last fetched one yielded at least 5 stubs (so the loop never
stops before a short page); if the crawl stops before the 20-page cap,
the last fetched page yielded fewer than 5 stubs (zero included); and if
every page yields 4 stubs the crawl stops after the first page. -/
theorem crawl_pagination_spec (stubs : Nat → Nat) :
    crawlPagesFetched stubs ≤ 20 ∧
    1 ≤ crawlPagesFetched stubs ∧
    (∀ j, 1 ≤ j → j < crawlPagesFetched stubs → 5 ≤ stubs j) ∧
    (crawlPagesFetched stubs < 20 → stubs (crawlPagesFetched stubs) < 5) ∧
    ((∀ p, stubs p = 4) → crawlPagesFetched stubs = 1) := by
  refine ⟨?_, ?_, ?_, ?_, ?_⟩
  · have := crawlGo_le stubs 20 1 (by omega); simpa [crawlPagesFetched] using this
  · have := crawlGo_ge stubs 20 1 (by omega); simpa [crawlPagesFetched] using this
  · intro j hj1 hj2
    exact crawlGo_big stubs 20 1 (by omega) j hj1 hj2
  · intro h
    simp only [crawlPagesFetched] at h ⊢
    exact crawlGo_stop stubs 20 1 (by omega) (by omega)
  · intro h
    simp [crawlPagesFetched, crawlGo, h]

/-- Witness for C7 at the concrete stub sequence that yields 4 stubs on
every page: exactly one page is fetched. -/
theorem crawl_pagination_spec_witness :
    crawlPagesFetched (fun _ => 4) = 1 :=
  (crawl_pagination_spec (fun _ => 4)).2.2.2.2 (fun _ => rfl)

theorem insertByRel_perm (x : SkillItem) (l : List SkillItem) :
    List.Perm (insertByRel x l) (x :: l) := by
  induction l with
  | nil => rfl
  | cons y ys ih =>
    simp only [insertByRel]
    split_ifs
    · exact ((ih.cons y).trans (List.Perm.swap x y ys))
    · rfl

theorem sortByRelDesc_perm (l : List SkillItem) :
    List.Perm (sortByRelDesc l) l := by
  induction l with
  | nil => rfl
  | cons x xs ih =>
    exact (insertByRel_perm x (sortByRelDesc xs)).trans (ih.cons x)

theorem insertByRel_pairwise (x : SkillItem) (l : List SkillItem)
    (h : l.Pairwise (fun a b => b.relevance ≤ a.relevance)) :
    (insertByRel x l).Pairwise (fun a b => b.relevance ≤ a.relevance) := by
  induction l with
  | nil => simp [insertByRel]
  | cons y ys ih =>
    simp only [insertByRel]
    rcases h with - | ⟨hy, hys⟩
    split_ifs with hlt
    · refine List.Pairwise.cons ?_ (ih hys)
      intro z hz
      rcases List.mem_cons.mp ((insertByRel_perm x ys).mem_iff.mp hz) with rfl | hz
      · omega
      · exact hy z hz
    · refine List.Pairwise.cons ?_ (List.Pairwise.cons hy hys)
      intro z hz
      rcases List.mem_cons.mp hz with rfl | hz
      · omega
      · have := hy z hz
        omega

theorem sortByRelDesc_pairwise (l : List SkillItem) :
    (sortByRelDesc l).Pairwise (fun a b => b.relevance ≤ a.relevance) := by
  induction l with
  | nil => simp [sortByRelDesc]
  | cons x xs ih => exact insertByRel_pairwise x (sortByRelDesc xs) ih

theorem mem_normalizeSkills {pool : Option (List JSStr)} {field : SkillsField}
    {s : SkillItem} (h : s ∈ normalizeSkills pool field) :
    s.keyword ≠ [] ∧ 50 ≤ s.relevance ∧ poolFilter pool s.keyword = true := by
  cases field with
  | notArray => simp [normalizeSkills] at h
  | arr items =>
    have h2 := (sortByRelDesc_perm _).mem_iff.mp h
    simp only [List.mem_filter, Bool.and_eq_true, decide_eq_true_eq] at h2
    exact ⟨h2.1.2.1, h2.1.2.2, h2.2⟩

/-- C3: output filtering of the Skill Extractor.  When a keyword pool is
supplied, every skill item surviving `normalizeSkills` has its keyword
in the pool and relevance at least 50, and the returned list is sorted
in descending order of relevance.  (`field` ranges over every possible
model response for one of the `skills` / `preferredSkills` arrays.) -/
theorem skillExtractor_output_filtering (ps : List JSStr) (_hps : ps ≠ [])
    (field : SkillsField) :
    (∀ s ∈ normalizeSkills (some ps) field, s.keyword ∈ ps ∧ 50 ≤ s.relevance) ∧
    (normalizeSkills (some ps) field).Pairwise
      (fun a b => b.relevance ≤ a.relevance) := by
  constructor
  · intro s hs
    obtain ⟨-, hrel, hpool⟩ := mem_normalizeSkills hs
    refine ⟨?_, hrel⟩
    simp only [poolFilter, List.any_eq_true, decide_eq_true_eq] at hpool
    obtain ⟨k, hk, rfl⟩ := hpool
    exact hk
  · cases field with
    | notArray => simp [normalizeSkills]
    | arr items => exact sortByRelDesc_pairwise _

/-- Witness for C3 at a concrete pool and model response. -/
theorem skillExtractor_output_filtering_witness :
    (∀ s ∈ normalizeSkills (some [codes "react", codes "figma"])
        (.arr [.obj (some (codes "React")) (some (codes "react")) (some 80),
               .str (codes "figma"),
               .obj none (some (codes "python")) (some 90),
               .obj (some (codes "SQL")) (some (codes "sql")) (some 30)]),
        s.keyword ∈ [codes "react", codes "figma"] ∧ 50 ≤ s.relevance) ∧
    (normalizeSkills (some [codes "react", codes "figma"])
        (.arr [.obj (some (codes "React")) (some (codes "react")) (some 80),
               .str (codes "figma"),
               .obj none (some (codes "python")) (some 90),
               .obj (some (codes "SQL")) (some (codes "sql")) (some 30)])).Pairwise
      (fun a b => b.relevance ≤ a.relevance) :=
  skillExtractor_output_filtering [codes "react", codes "figma"] (by decide) _

/-- C4 counterexample: for a 100-character extracted text and an empty
model response, `parseJobWithAI` returns empty skill arrays but *omits*
`rawContent` (src/lib/openai.ts:143-146 has no `rawContent` field), so
the result's `rawContent` is not the extracted input text. -/
theorem skillExtractor_failure_counterexample :
    (parseJobWithAI (List.replicate 100 97) none .emptyContent).skills = [] ∧
    (parseJobWithAI (List.replicate 100 97) none .emptyContent).rawContent = none ∧
    (parseJobWithAI (List.replicate 100 97) none .emptyContent).rawContent ≠
      some (List.replicate 100 97) := by
  refine ⟨rfl, rfl, ?_⟩
  intro h
  simp [parseJobWithAI] at h

/-- C4 amended: on every extraction failure `parseJobWithAI` returns
empty `skills` and `preferredSkills` and never throws; `rawContent`
equals the extracted text when the text was too short or the model
call / JSON parse threw, but is omitted when the model responded with
empty content on a long-enough text. -/
theorem skillExtractor_failure_modes (text : JSStr)
    (pool : Option (List JSStr)) (outcome : LLMOutcome) :
    ((outcome = .fail ∨ outcome = .emptyContent ∨ text.length < 100) →
      (parseJobWithAI text pool outcome).skills = [] ∧
      (parseJobWithAI text pool outcome).preferredSkills = []) ∧
    (outcome = .fail → (parseJobWithAI text pool outcome).rawContent = some text) ∧
    (text.length < 100 → (parseJobWithAI text pool outcome).rawContent = some text) ∧
    (100 ≤ text.length → outcome = .emptyContent →
      (parseJobWithAI text pool outcome).rawContent = none) := by
  by_cases hlen : text.length < 100
  · refine ⟨fun _ => ?_, fun _ => ?_, fun _ => ?_, fun h100 _ => absurd hlen (by omega)⟩ <;>
      simp [parseJobWithAI, hlen]
  · refine ⟨?_, ?_, ?_, ?_⟩
    · rintro (rfl | rfl | h)
      · exact ⟨by simp [parseJobWithAI, hlen], by simp [parseJobWithAI, hlen]⟩
      · exact ⟨by simp [parseJobWithAI, hlen], by simp [parseJobWithAI, hlen]⟩
      · omega
    · rintro rfl
      simp [parseJobWithAI, hlen]
    · intro h
      omega
    · rintro - rfl
      simp [parseJobWithAI, hlen]

/-- Witness for C4's amended theorem at a concrete short text and a
concrete thrown-call outcome. -/
theorem skillExtractor_failure_modes_witness :
    (parseJobWithAI (codes "x") none .fail).skills = [] ∧
    (parseJobWithAI (codes "x") none .fail).rawContent = some (codes "x") :=
  ⟨((skillExtractor_failure_modes (codes "x") none .fail).1 (Or.inl rfl)).1,
   (skillExtractor_failure_modes (codes "x") none .fail).2.1 rfl⟩

/-- C10 counterexample: a structured skill item with relevance `0` is
coerced to relevance `50`, yet it is *not* retained in the output when
its keyword is missing from the supplied pool — the claim's "retained
in the output" does not hold unconditionally. -/
theorem relevanceZero_counterexample :
    (normalizeOne (.obj (some (codes "Zzz")) (some (codes "zzz"))
        (some 0))).relevance = 50 ∧
    normalizeSkills (some [codes "react"])
      (.arr [.obj (some (codes "Zzz")) (some (codes "zzz")) (some 0)]) = [] := by
  constructor
  · rfl
  · rfl

/-- C10 amended: a structured skill item whose relevance is absent or
`0` (falsy) is assigned relevance 50 by the normalizer, so it passes the
relevance cutoff; it is retained in the output provided its derived
keyword is non-empty and belongs to the pool when one is supplied. -/
theorem relevanceZero_coercion (pool : Option (List JSStr))
    (items : List RawSkill) (d k : Option JSStr) (r : Option Int)
    (hr : r = none ∨ r = some 0)
    (hmem : RawSkill.obj d k r ∈ items)
    (hkw : (normalizeOne (.obj d k r)).keyword ≠ [])
    (hpool : ∀ ps, pool = some ps → (normalizeOne (.obj d k r)).keyword ∈ ps) :
    (normalizeOne (.obj d k r)).relevance = 50 ∧
    normalizeOne (.obj d k r) ∈ normalizeSkills pool (.arr items) := by
  have hrel : (normalizeOne (.obj d k r)).relevance = 50 := by
    rcases hr with rfl | rfl <;> rfl
  refine ⟨hrel, ?_⟩
  rw [normalizeSkills]
  refine (sortByRelDesc_perm _).mem_iff.mpr ?_
  rw [List.mem_filter, List.mem_filter]
  refine ⟨⟨List.mem_map_of_mem normalizeOne hmem, ?_⟩, ?_⟩
  · simp [hkw, hrel]
  · cases pool with
    | none => rfl
    | some ps =>
      simp only [poolFilter, List.any_eq_true, decide_eq_true_eq]
      exact ⟨_, hpool ps rfl, rfl⟩

/-- Witness for C10's amended theorem at a concrete pool and item. -/
theorem relevanceZero_coercion_witness :
    (normalizeOne (.obj (some (codes "React")) (some (codes "react"))
        (some 0))).relevance = 50 ∧
    normalizeOne (.obj (some (codes "React")) (some (codes "react")) (some 0)) ∈
      normalizeSkills (some [codes "react"])
        (.arr [.obj (some (codes "React")) (some (codes "react")) (some 0)]) :=
  relevanceZero_coercion (some [codes "react"]) _ _ _ _ (Or.inr rfl)
    (List.mem_singleton.mpr rfl) (by decide)
    (fun ps h => by cases h; decide)

theorem isPrefixOf_self (l : JSStr) : l.isPrefixOf l = true := by
  induction l with
  | nil => rfl
  | cons c t ih => simp [List.isPrefixOf, ih]

theorem strIncludes_self (l : JSStr) : strIncludes l l = true := by
  cases l <;> simp [strIncludes, isPrefixOf_self]

/-- C6: the title-similarity function.  (1) A title scores 1.0 against
itself.  (2) If some length > 1 token of the normalized search title
neither contains nor is contained in any token of the normalized link
title, the score is 0.  (3) If every search token matches but the
normalized titles differ, the score is
`max(0.1, 0.9 - 0.15 * |wordCount(x) - wordCount(y)|)` where word
counts are the lengths of the length > 1 token lists. -/
theorem title_similarity_spec (x y : JSStr) :
    (x ≠ [] → calculateSimilarity x x = 1) ∧
    ((∃ k ∈ titleWords (normalizeTitle x), ∀ w ∈ titleWords (normalizeTitle y),
        tokenMatch w k = false) → calculateSimilarity x y = 0) ∧
    ((∀ k ∈ titleWords (normalizeTitle x), ∃ w ∈ titleWords (normalizeTitle y),
        tokenMatch w k = true) → normalizeTitle x ≠ normalizeTitle y →
      calculateSimilarity x y =
        max (1/10 : ℚ) (9/10 - (15/100) *
          (((((titleWords (normalizeTitle x)).length : ℤ) -
            ((titleWords (normalizeTitle y)).length : ℤ)).natAbs : ℚ)))) := by
  refine ⟨fun _hx => ?_, fun hb => ?_, fun hc hne => ?_⟩
  · simp [calculateSimilarity]
  · obtain ⟨k, hk, hnomatch⟩ := hb
    by_cases heq : normalizeTitle x = normalizeTitle y
    · exfalso
      have hk' : k ∈ titleWords (normalizeTitle y) := heq ▸ hk
      have h1 := hnomatch k hk'
      simp [tokenMatch, strIncludes_self] at h1
    · cases hall : (titleWords (normalizeTitle x)).all
          (fun k => (titleWords (normalizeTitle y)).any (fun w => tokenMatch w k)) with
      | true =>
        exfalso
        have h1 := List.all_eq_true.mp hall k hk
        rw [List.any_eq_true] at h1
        obtain ⟨w, hw, hmt⟩ := h1
        rw [hnomatch w hw] at hmt
        exact Bool.false_ne_true hmt
      | false => simp [calculateSimilarity, heq, hall]
  · have hall : (titleWords (normalizeTitle x)).all
        (fun k => (titleWords (normalizeTitle y)).any (fun w => tokenMatch w k)) = true :=
      List.all_eq_true.mpr fun k hk => List.any_eq_true.mpr (hc k hk)
    simp [calculateSimilarity, hne, hall]

/-- Witness for C6 at a concrete non-empty title. -/
theorem title_similarity_spec_witness :
    calculateSimilarity (codes "frontend developer") (codes "frontend developer") = 1 :=
  (title_similarity_spec (codes "frontend developer") (codes "frontend developer")).1
    (by decide)

/-- C5 counterexample: a page carrying the "apply via homepage" marker
but no extractable external URL.  The detector returns
`isExternal: true` with a null URL, `searchCompanyJobs` routes listing
acquisition through the internal aggregator path, yet the decision
reported to the caller is `isExternal = true` — not internal as the
claim states. -/
theorem external_detector_counterexample :
    hasExternalMarkers (codes "<a title=\"홈페이지 지원\">apply</a>") = true ∧
    extractExternalUrl ⟨codes "<a title=\"홈페이지 지원\">apply</a>", none⟩ = none ∧
    checkIfExternalCompany ⟨codes "<a title=\"홈페이지 지원\">apply</a>", none⟩ =
      (true, none) ∧
    (searchDecision ⟨codes "<a title=\"홈페이지 지원\">apply</a>", none⟩).usedExternalListingPath = false ∧
    (searchDecision ⟨codes "<a title=\"홈페이지 지원\">apply</a>", none⟩).reportedIsExternal = true := by
  refine ⟨?_, ?_, ?_, ?_, ?_⟩ <;> decide

/-- C5 amended: absence of the markers yields `isExternal = false` (and
the internal path); presence of the markers without an extractable URL
routes listing acquisition through the internal aggregator path with no
error and no reported URL, but the `isExternal` flag reported to the
caller remains `true`. -/
theorem external_detector_degradation (page : HtmlPage) :
    (hasExternalMarkers page.raw = false →
      checkIfExternalCompany page = (false, none) ∧
      (searchDecision page).usedExternalListingPath = false ∧
      (searchDecision page).reportedIsExternal = false) ∧
    (hasExternalMarkers page.raw = true → extractExternalUrl page = none →
      (searchDecision page).usedExternalListingPath = false ∧
      (searchDecision page).reportedIsExternal = true ∧
      (searchDecision page).reportedExternalUrl = none) := by
  constructor
  · intro h
    simp [checkIfExternalCompany, searchDecision, h, jsTruthyOptStr]
  · intro h hurl
    simp [checkIfExternalCompany, searchDecision, h, hurl, jsTruthyOptStr]

/-- Witness for C5's amended theorem at the concrete marker-only page. -/
theorem external_detector_degradation_witness :
    (searchDecision ⟨codes "<div title=\"홈페이지 지원\"></div>", none⟩).usedExternalListingPath = false ∧
    (searchDecision ⟨codes "<div title=\"홈페이지 지원\"></div>", none⟩).reportedIsExternal = true ∧
    (searchDecision ⟨codes "<div title=\"홈페이지 지원\"></div>", none⟩).reportedExternalUrl = none :=
  (external_detector_degradation ⟨codes "<div title=\"홈페이지 지원\"></div>", none⟩).2
    (by decide) (by decide)

theorem isPrefixOf_append_self (a b : JSStr) : a.isPrefixOf (a ++ b) = true := by
  induction a with
  | nil => simp [List.isPrefixOf]
  | cons c t ih => simp [List.isPrefixOf, ih]

theorem takeWhile_append_stop {p : Nat → Bool} :
    ∀ (a : JSStr) {c : Nat} {t : JSStr}, (∀ x ∈ a, p x = true) → p c = false →
      (a ++ c :: t).takeWhile p = a
  | [], c, t, _, hc => by simp [List.takeWhile, hc]
  | x :: xs, c, t, ha, hc => by
    have hx : p x = true := ha x (List.mem_cons_self x xs)
    simp only [List.cons_append, List.takeWhile_cons, hx, if_true]
    rw [takeWhile_append_stop xs (fun y hy => ha y (List.mem_cons_of_mem x hy)) hc]

theorem dropWhile_append_stop {p : Nat → Bool} :
    ∀ (a : JSStr) {c : Nat} {t : JSStr}, (∀ x ∈ a, p x = true) → p c = false →
      (a ++ c :: t).dropWhile p = c :: t
  | [], c, t, _, hc => by simp [List.dropWhile, hc]
  | x :: xs, c, t, ha, hc => by
    have hx : p x = true := ha x (List.mem_cons_self x xs)
    simp only [List.cons_append, List.dropWhile_cons, hx, if_true]
    exact dropWhile_append_stop xs (fun y hy => ha y (List.mem_cons_of_mem x hy)) hc

theorem wordHy_ne_slash {c : Nat} (h : wordHy c = true) : c ≠ 47 := by
  simp only [wordHy, isWordCp, Bool.or_eq_true, Bool.and_eq_true,
    decide_eq_true_eq] at h
  omega

theorem wordHy_slash : wordHy 47 = false := by decide

theorem wordHy_jsLower {c : Nat} (h : wordHy c = true) :
    wordHy (jsLower c) = true := by
  simp only [wordHy, isWordCp, Bool.or_eq_true, Bool.and_eq_true,
    decide_eq_true_eq] at h ⊢
  simp only [jsLower]
  split_ifs <;> omega

/-- C8 counterexample: `https://a.com/jobs/sitemap-1` has a path ending
in `/jobs/{slug}` with a word-and-hyphen slug and no query string, yet
`isJobUrl` classifies it as excluded, because the slug contains the
excluded substring `sitemap`.  The claim's first half is therefore not
universally true. -/
theorem sitemap_classifier_counterexample :
    codes "https://a.com/jobs/sitemap-1" =
      codes "https://a.com" ++ codes "/jobs/" ++ codes "sitemap-1" ∧
    codes "sitemap-1" ≠ [] ∧
    (∀ c ∈ codes "sitemap-1", wordHy c = true) ∧
    (codes "https://a.com/jobs/sitemap-1").any (fun c => c == 63) = false ∧
    isJobUrl (codes "https://a.com/jobs/sitemap-1") = false := by
  refine ⟨?_, ?_, ?_, ?_, ?_⟩ <;> decide

/-- C8 amended: a URL whose path ends in `/jobs/{slug}` (word
characters and hyphens) and which matches none of the exclusion
patterns — among them any query string — is classified as a posting
URL, and appending `?ref=1` to *any* URL always classifies it as
excluded. -/
theorem sitemap_classifier_spec (pre slug : JSStr) (hs : slug ≠ [])
    (hw : ∀ c ∈ slug, wordHy c = true)
    (hex : matchesExcludePattern ((pre ++ codes "/jobs/" ++ slug).map jsLower) = false) :
    isJobUrl (pre ++ codes "/jobs/" ++ slug) = true ∧
    (∀ url : JSStr, isJobUrl (url ++ codes "?ref=1") = false) := by
  constructor
  · have hmapjobs : (codes "/jobs/").map jsLower = codes "/jobs/" := by decide
    have hjrev : (codes "/jobs/").reverse = [47, 115, 98, 111, 106, 47] := by
      decide
    have hrev : ((pre ++ codes "/jobs/" ++ slug).map jsLower).reverse =
        (slug.map jsLower).reverse ++
          (47 :: ([115, 98, 111, 106, 47] ++ (pre.map jsLower).reverse)) := by
      rw [List.map_append, List.map_append, hmapjobs, List.reverse_append,
        List.reverse_append, hjrev]
      simp
    have hallw : ∀ x ∈ (slug.map jsLower).reverse, wordHy x = true := by
      intro x hx
      rw [List.mem_reverse] at hx
      obtain ⟨d, hd, rfl⟩ := List.mem_map.mp hx
      exact wordHy_jsLower (hw d hd)
    obtain ⟨c, t, hct⟩ : ∃ c t, (slug.map jsLower).reverse = c :: t := by
      cases hsl : (slug.map jsLower).reverse with
      | nil =>
        exact absurd (List.map_eq_nil_iff.mp (List.reverse_eq_nil_iff.mp hsl)) hs
      | cons c t => exact ⟨c, t, rfl⟩
    rw [hct] at hrev hallw
    have hc : wordHy c = true := hallw c (List.mem_cons_self c t)
    have hstrip : stripTrailSlash ((c :: t) ++
        (47 :: ([115, 98, 111, 106, 47] ++ (pre.map jsLower).reverse))) =
        (c :: t) ++ (47 :: ([115, 98, 111, 106, 47] ++ (pre.map jsLower).reverse)) := by
      simp [stripTrailSlash, wordHy_ne_slash hc]
    have htake : (((c :: t) ++
        (47 :: ([115, 98, 111, 106, 47] ++ (pre.map jsLower).reverse))).takeWhile
          wordHy) = c :: t :=
      takeWhile_append_stop (c :: t) hallw wordHy_slash
    have hdrop : (((c :: t) ++
        (47 :: ([115, 98, 111, 106, 47] ++ (pre.map jsLower).reverse))).dropWhile
          wordHy) = 47 :: ([115, 98, 111, 106, 47] ++ (pre.map jsLower).reverse) :=
      dropWhile_append_stop (c :: t) hallw wordHy_slash
    have hjob : matchesJobPattern ((pre ++ codes "/jobs/" ++ slug).map jsLower) = true := by
      rw [matchesJobPattern, hrev, endSegMatch, hstrip, htake, hdrop]
      have hpref : ((codes "/jobs/").reverse).isPrefixOf
          (47 :: ([115, 98, 111, 106, 47] ++ (pre.map jsLower).reverse)) = true := by
        rw [hjrev]
        have h2 : (47 : Nat) :: ([115, 98, 111, 106, 47] ++ (pre.map jsLower).reverse) =
            [47, 115, 98, 111, 106, 47] ++ (pre.map jsLower).reverse := by simp
        rw [h2]
        exact isPrefixOf_append_self _ _
      have hany : jobPatternAlts.any (fun a => a.reverse.isPrefixOf
          (47 :: ([115, 98, 111, 106, 47] ++ (pre.map jsLower).reverse))) = true :=
        List.any_eq_true.mpr ⟨codes "/jobs/", by simp [jobPatternAlts], hpref⟩
      rw [hany, Bool.and_true]
      simp
    rw [isJobUrl, hjob, hex]
    rfl
  · intro url
    have hq : ((url ++ codes "?ref=1").map jsLower).any (fun c => c == 63) = true := by
      rw [List.map_append, List.any_append]
      have h1 : ((codes "?ref=1").map jsLower).any (fun c => c == 63) = true := by
        decide
      rw [h1, Bool.or_true]
    have hex2 : matchesExcludePattern ((url ++ codes "?ref=1").map jsLower) = true := by
      rw [matchesExcludePattern, hq]
      simp only [Bool.or_true, Bool.true_or]
    rw [isJobUrl, hex2]
    rw [Bool.not_true, Bool.and_false]

/-- Witness for C8's amended theorem at a concrete clean posting URL. -/
theorem sitemap_classifier_spec_witness :
    isJobUrl (codes "https://a.com" ++ codes "/jobs/" ++ codes "frontend-dev-123") = true :=
  (sitemap_classifier_spec (codes "https://a.com") (codes "frontend-dev-123")
    (by decide) (by decide) (by decide)).1

section MapLemmas

variable {α β : Type} [BEq α] [LawfulBEq α]

theorem lookup_none_keys {m : List (α × β)} {k : α}
    (h : m.lookup k = none) : ∀ p ∈ m, p.1 ≠ k := by
  induction m with
  | nil => simp
  | cons e es ih =>
    obtain ⟨a, b⟩ := e
    rw [List.lookup_cons] at h
    cases hk : k == a with
    | true => rw [hk] at h; simp at h
    | false =>
      rw [hk] at h
      intro p hp
      rcases List.mem_cons.mp hp with rfl | hp'
      · have hka : k ≠ a := by simpa using hk
        exact fun hh => hka (hh ▸ rfl)
      · exact ih h p hp'

theorem mem_jsMapSet {m : List (α × β)} {k : α} {v : β} {p : α × β}
    (h : p ∈ jsMapSet m k v) : p = (k, v) ∨ (p ∈ m ∧ p.1 ≠ k) := by
  unfold jsMapSet at h
  split_ifs at h with hl
  · obtain ⟨q, hq, hqe⟩ := List.mem_map.mp h
    by_cases hqk : (q.1 == k) = true
    · left
      rw [if_pos hqk] at hqe
      exact hqe.symm
    · right
      rw [if_neg hqk] at hqe
      subst hqe
      exact ⟨hq, by simpa using hqk⟩
  · rcases List.mem_append.mp h with hm | hv
    · right
      refine ⟨hm, ?_⟩
      have hnone : m.lookup k = none := Option.not_isSome_iff_eq_none.mp hl
      exact lookup_none_keys hnone p hm
    · left
      simpa using hv

theorem lookup_map_replace (m : List (α × β)) (k : α) (v : β)
    (h : (m.lookup k).isSome) :
    (m.map (fun p => if p.1 == k then (k, v) else p)).lookup k = some v := by
  induction m with
  | nil => simp at h
  | cons e es ih =>
    obtain ⟨a, b⟩ := e
    by_cases hak : a = k
    · subst hak
      simp [List.lookup_cons]
    · have hab : (a == k) = false := beq_eq_false_iff_ne.mpr hak
      have hka : (k == a) = false := beq_eq_false_iff_ne.mpr (Ne.symm hak)
      rw [List.lookup_cons, hka] at h
      simp only [List.map_cons]
      rw [if_neg (by simp [hab]), List.lookup_cons, hka]
      exact ih h

theorem lookup_append_single_self (m : List (α × β)) (k : α) (v : β)
    (h : m.lookup k = none) : (m ++ [(k, v)]).lookup k = some v := by
  induction m with
  | nil => simp [List.lookup_cons]
  | cons e es ih =>
    obtain ⟨a, b⟩ := e
    rw [List.lookup_cons] at h
    cases hk : k == a with
    | true => rw [hk] at h; simp at h
    | false =>
      rw [hk] at h
      rw [List.cons_append, List.lookup_cons, hk]
      exact ih h

theorem lookup_jsMapSet_self (m : List (α × β)) (k : α) (v : β) :
    (jsMapSet m k v).lookup k = some v := by
  unfold jsMapSet
  split_ifs with hs
  · exact lookup_map_replace m k v hs
  · exact lookup_append_single_self m k v (Option.not_isSome_iff_eq_none.mp hs)

theorem lookup_map_replace_ne (m : List (α × β)) (k : α) (v : β) {q : α}
    (h : q ≠ k) :
    (m.map (fun p => if p.1 == k then (k, v) else p)).lookup q = m.lookup q := by
  induction m with
  | nil => rfl
  | cons e es ih =>
    obtain ⟨a, b⟩ := e
    simp only [List.map_cons]
    by_cases hak : a = k
    · subst hak
      rw [if_pos (by simp), List.lookup_cons, List.lookup_cons,
        beq_eq_false_iff_ne.mpr h]
      exact ih
    · rw [if_neg (by simp [beq_eq_false_iff_ne.mpr hak]), List.lookup_cons,
        List.lookup_cons]
      cases hqa : q == a with
      | true => rfl
      | false => exact ih

theorem lookup_append_single_ne (m : List (α × β)) (k : α) (v : β) {q : α}
    (h : q ≠ k) : (m ++ [(k, v)]).lookup q = m.lookup q := by
  induction m with
  | nil => simp [List.lookup_cons, beq_eq_false_iff_ne.mpr h]
  | cons e es ih =>
    obtain ⟨a, b⟩ := e
    rw [List.cons_append, List.lookup_cons, List.lookup_cons]
    cases hqa : q == a with
    | true => rfl
    | false => exact ih

theorem lookup_jsMapSet_ne (m : List (α × β)) (k : α) (v : β) {q : α}
    (h : q ≠ k) : (jsMapSet m k v).lookup q = m.lookup q := by
  unfold jsMapSet
  split_ifs with hs
  · exact lookup_map_replace_ne m k v h
  · exact lookup_append_single_ne m k v h

theorem isSome_lookup_jsMapSet (m : List (α × β)) (k : α) (v : β) (q : α)
    (h : (m.lookup q).isSome) : ((jsMapSet m k v).lookup q).isSome := by
  by_cases hqk : q = k
  · subst hqk
    rw [lookup_jsMapSet_self]
    rfl
  · rw [lookup_jsMapSet_ne m k v hqk]
    exact h

end MapLemmas

theorem matchStep_eq (ac : List Course) (m : SkillAssign)
    (st : List Nat × SkillCourses) (skill : SkillItem) :
    matchStep ac m st skill =
      (st.1 ++ (selCourses ac m st skill).map Course.id,
       jsMapSet st.2 skill.display (selCourses ac m st skill)) := rfl

theorem selCourses_fresh (ac : List Course) (m : SkillAssign)
    (st : List Nat × SkillCourses) (skill : SkillItem) :
    ∀ c ∈ selCourses ac m st skill, c.id ∉ st.1 := by
  intro c hc
  have hc' := List.mem_of_mem_take hc
  have h2 := (List.mem_filter.mp hc').2
  simpa using h2

theorem matchStep_inv {used0 : List Nat} {st : List Nat × SkillCourses}
    (ac : List Course) (m : SkillAssign) (skill : SkillItem)
    (h : StateInv used0 st) : StateInv used0 (matchStep ac m st skill) := by
  obtain ⟨h1, h2, h3, h4⟩ := h
  rw [matchStep_eq]
  refine ⟨?_, ?_, ?_, ?_⟩
  · intro x hx
    exact List.mem_append.mpr (Or.inl (h1 x hx))
  · intro p hp c hc
    rcases mem_jsMapSet hp with rfl | ⟨hpm, -⟩
    · exact List.mem_append.mpr (Or.inr (List.mem_map_of_mem Course.id hc))
    · exact List.mem_append.mpr (Or.inl (h2 p hpm c hc))
  · intro p hp c hc
    rcases mem_jsMapSet hp with rfl | ⟨hpm, -⟩
    · exact fun hx => selCourses_fresh ac m st skill c hc (h1 _ hx)
    · exact h3 p hpm c hc
  · intro p hp q hq hpq c hc d hd
    rcases mem_jsMapSet hp with rfl | ⟨hpm, hpk⟩ <;>
      rcases mem_jsMapSet hq with rfl | ⟨hqm, hqk⟩
    · exact absurd rfl hpq
    · intro he
      exact selCourses_fresh ac m st skill c hc (he ▸ h2 q hqm d hd)
    · intro he
      refine selCourses_fresh ac m st skill d hd ?_
      rw [← he]
      exact h2 p hpm c hc
    · exact h4 p hpm q hqm hpq c hc d hd

theorem foldl_matchStep_inv (ac : List Course) (m : SkillAssign)
    (todo : List SkillItem) {used0 : List Nat} :
    ∀ st, StateInv used0 st →
      StateInv used0 (todo.foldl (matchStep ac m) st) := by
  induction todo with
  | nil => exact fun st h => h
  | cons s rest ih =>
    exact fun st h => ih _ (matchStep_inv ac m s h)

theorem matchCourses_inv (skills : List SkillItem) (ac : List Course)
    (used : List Nat) :
    StateInv used (matchCoursesForSkills skills ac used) := by
  unfold matchCoursesForSkills
  split_ifs with hempty
  · exact ⟨fun x hx => hx, by simp, by simp, by simp⟩
  · exact foldl_matchStep_inv ac _ skills (used, [])
      ⟨fun x hx => hx, by simp, by simp, by simp⟩

/-- C1: Course Matcher non-duplication.  For every pair of skill lists
(required, preferred) processed in that order against one shared
used-set (starting empty), and every pair of DB responses: within each
pass no course id appears under two distinct display names, and the
course-id sets of the required and preferred results are disjoint. -/
theorem courseMatcher_no_duplication (req pref : List SkillItem)
    (coursesR coursesP : List Course) :
    (∀ p ∈ (matchCoursesForSkills req coursesR []).2,
      ∀ q ∈ (matchCoursesForSkills req coursesR []).2,
      p.1 ≠ q.1 → ∀ c ∈ p.2, ∀ d ∈ q.2, c.id ≠ d.id) ∧
    (∀ p ∈ (matchCoursesForSkills pref coursesP
        (matchCoursesForSkills req coursesR []).1).2,
      ∀ q ∈ (matchCoursesForSkills pref coursesP
        (matchCoursesForSkills req coursesR []).1).2,
      p.1 ≠ q.1 → ∀ c ∈ p.2, ∀ d ∈ q.2, c.id ≠ d.id) ∧
    (∀ p ∈ (matchCoursesForSkills req coursesR []).2,
      ∀ q ∈ (matchCoursesForSkills pref coursesP
        (matchCoursesForSkills req coursesR []).1).2,
      ∀ c ∈ p.2, ∀ d ∈ q.2, c.id ≠ d.id) := by
  have hA := matchCourses_inv req coursesR []
  have hB := matchCourses_inv pref coursesP
    (matchCoursesForSkills req coursesR []).1
  refine ⟨hA.2.2.2, hB.2.2.2, ?_⟩
  intro p hp q hq c hc d hd
  intro he
  exact hB.2.2.1 q hq d hd (he ▸ hA.2.1 p hp c hc)

/-- Witness for C1 at concrete skill lists and course tables: course 1
(recommended under "React" in the required pass) differs from course 3
(recommended under "TypeScript"). -/
theorem courseMatcher_no_duplication_witness :
    (⟨1, codes "c1", [codes "react"]⟩ : Course).id ≠
      (⟨3, codes "c3", [codes "typescript"]⟩ : Course).id :=
  (courseMatcher_no_duplication
    [⟨codes "React", codes "react", 90⟩, ⟨codes "TypeScript", codes "typescript", 80⟩]
    []
    [⟨1, codes "c1", [codes "react"]⟩,
     ⟨2, codes "c2", [codes "react", codes "typescript"]⟩,
     ⟨3, codes "c3", [codes "typescript"]⟩]
    []).1
    (codes "React",
      [⟨1, codes "c1", [codes "react"]⟩,
       ⟨2, codes "c2", [codes "react", codes "typescript"]⟩])
    (by decide)
    (codes "TypeScript", [⟨3, codes "c3", [codes "typescript"]⟩])
    (by decide) (by decide)
    ⟨1, codes "c1", [codes "react"]⟩ (by decide)
    ⟨3, codes "c3", [codes "typescript"]⟩ (by decide)

theorem assignedTo_iff (m : SkillAssign) (kw : JSStr) (c : Course) :
    assignedTo m kw c = true ↔ ownerKeyword m c.id = some kw := by
  unfold assignedTo ownerKeyword
  cases m.lookup c.id with
  | none => simp
  | some e => simp

theorem bestSkill_mem : ∀ (b : SkillItem) (l : List SkillItem),
    bestSkill b l ∈ b :: l
  | _, [] => List.mem_singleton.mpr rfl
  | b, c :: rest => by
    by_cases hlt : b.relevance < c.relevance
    · simp only [bestSkill, if_pos hlt]
      exact List.mem_cons_of_mem b (bestSkill_mem c rest)
    · simp only [bestSkill, if_neg hlt]
      rcases List.mem_cons.mp (bestSkill_mem b rest) with he | hr
      · rw [he]
        exact List.mem_cons_self b (c :: rest)
      · exact List.mem_cons_of_mem b (List.mem_cons_of_mem c hr)

theorem assignCourse_sound {skills : List SkillItem} {ac : List Course}
    {m : SkillAssign} {course : Course} (hc : course ∈ ac)
    (hm : OwnerSound skills ac m) :
    OwnerSound skills ac (assignCourse skills m course) := by
  unfold assignCourse
  cases hfil : skills.filter (fun s => courseHasKeyword course s) with
  | nil => exact hm
  | cons s rest =>
    intro id kw hid
    by_cases hide : id = course.id
    · subst hide
      have hid' : ((jsMapSet m course.id
          ((bestSkill s rest).keyword, (bestSkill s rest).relevance)).lookup
            course.id).map Prod.fst = some kw := hid
      rw [lookup_jsMapSet_self] at hid'
      have hkw : (bestSkill s rest).keyword = kw := by simpa using hid'
      have hbest : bestSkill s rest ∈ s :: rest := bestSkill_mem s rest
      rw [← hfil] at hbest
      have hb2 := List.mem_filter.mp hbest
      exact ⟨course, hc, rfl, bestSkill s rest, hb2.1, hkw, by simpa using hb2.2⟩
    · have hid' : (m.lookup id).map Prod.fst = some kw := by
        have heq : ((jsMapSet m course.id
            ((bestSkill s rest).keyword, (bestSkill s rest).relevance)).lookup
              id).map Prod.fst = some kw := hid
        rw [lookup_jsMapSet_ne _ _ _ hide] at heq
        exact heq
      exact hm id kw hid'

theorem courseToSkillMap_sound (skills : List SkillItem) (ac : List Course) :
    OwnerSound skills ac (courseToSkillMap skills ac) := by
  unfold courseToSkillMap
  have hgen : ∀ (todo : List Course), (∀ c ∈ todo, c ∈ ac) →
      ∀ m, OwnerSound skills ac m →
        OwnerSound skills ac (todo.foldl (assignCourse skills) m) := by
    intro todo
    induction todo with
    | nil => exact fun _ m hm => hm
    | cons c rest ih =>
      intro hsub m hm
      exact ih (fun d hd => hsub d (List.mem_cons_of_mem c hd)) _
        (assignCourse_sound (hsub c (List.mem_cons_self c rest)) hm)
  refine hgen ac (fun c hc => hc) [] ?_
  intro id kw hid
  simp [ownerKeyword] at hid

theorem selCourses_sound (ac : List Course) (m : SkillAssign)
    (st : List Nat × SkillCourses) (skill : SkillItem) :
    ∀ c ∈ selCourses ac m st skill,
      c ∈ ac ∧ ownerKeyword m c.id = some skill.keyword := by
  intro c hc
  have hc1 := List.mem_of_mem_take hc
  have hc2 := (List.mem_filter.mp hc1).1
  have hc3 := List.mem_filter.mp hc2
  exact ⟨hc3.1, (assignedTo_iff m skill.keyword c).mp hc3.2⟩

theorem selCourses_len (ac : List Course) (m : SkillAssign)
    (st : List Nat × SkillCourses) (skill : SkillItem) :
    (selCourses ac m st skill).length ≤ 5 := by
  unfold selCourses
  rw [List.length_take]
  exact min_le_left _ _

theorem matchStep_resultOk {skills : List SkillItem} {m : SkillAssign}
    {ac : List Course} {st : List Nat × SkillCourses} {skill : SkillItem}
    (hskill : skill ∈ skills) (h : ResultOk skills m ac st.2) :
    ResultOk skills m ac (matchStep ac m st skill).2 := by
  rw [matchStep_eq]
  intro p hp
  rcases mem_jsMapSet hp with rfl | ⟨hpm, -⟩
  · exact ⟨selCourses_len ac m st skill,
      skill, hskill, rfl, selCourses_sound ac m st skill⟩
  · exact h p hpm

theorem foldl_resultOk {skills : List SkillItem} {m : SkillAssign}
    {ac : List Course} (todo : List SkillItem)
    (hsub : ∀ s ∈ todo, s ∈ skills) :
    ∀ st, ResultOk skills m ac st.2 →
      ResultOk skills m ac (todo.foldl (matchStep ac m) st).2 := by
  induction todo with
  | nil => exact fun _ h => h
  | cons s rest ih =>
    intro st h
    exact ih (fun t ht => hsub t (List.mem_cons_of_mem s ht)) _
      (matchStep_resultOk (hsub s (List.mem_cons_self s rest)) h)

theorem foldl_preserves_isSome (ac : List Course) (m : SkillAssign)
    (todo : List SkillItem) (k : JSStr) :
    ∀ st, ((st.2 : SkillCourses).lookup k).isSome →
      (((todo.foldl (matchStep ac m) st).2).lookup k).isSome := by
  induction todo with
  | nil => exact fun _ h => h
  | cons s rest ih =>
    intro st h
    refine ih _ ?_
    rw [matchStep_eq]
    exact isSome_lookup_jsMapSet _ _ _ _ h

theorem foldl_lookup_isSome (ac : List Course) (m : SkillAssign)
    (todo : List SkillItem) {s : SkillItem} (hs : s ∈ todo) :
    ∀ st, (((todo.foldl (matchStep ac m) st).2).lookup s.display).isSome := by
  induction todo with
  | nil => cases hs
  | cons t rest ih =>
    intro st
    rcases List.mem_cons.mp hs with rfl | hs'
    · refine foldl_preserves_isSome ac m rest s.display _ ?_
      rw [matchStep_eq]
      rw [lookup_jsMapSet_self]
      rfl
    · exact ih hs' _

theorem foldl_lookup_unchanged (ac : List Course) (m : SkillAssign)
    (todo : List SkillItem) (k : JSStr)
    (hne : ∀ t ∈ todo, t.display ≠ k) :
    ∀ st, ((todo.foldl (matchStep ac m) st).2).lookup k = st.2.lookup k := by
  induction todo with
  | nil => exact fun _ => rfl
  | cons t rest ih =>
    intro st
    rw [List.foldl_cons,
      ih (fun u hu => hne u (List.mem_cons_of_mem t hu)), matchStep_eq]
    exact lookup_jsMapSet_ne _ _ _
      (fun hh => hne t (List.mem_cons_self t rest) hh.symm)

theorem foldl_zero_owned (ac : List Course) (m : SkillAssign)
    {used0 : List Nat} {s : SkillItem}
    (hown : ∀ c ∈ ac, ownerKeyword m c.id ≠ some s.keyword ∨ c.id ∈ used0) :
    ∀ (todo : List SkillItem), s ∈ todo →
      (todo.map SkillItem.display).Nodup →
      ∀ st, StateInv used0 st →
        ((todo.foldl (matchStep ac m) st).2).lookup s.display = some [] := by
  intro todo
  induction todo with
  | nil => intro hs; cases hs
  | cons t rest ih =>
    intro hs hnd st hinv
    rw [List.foldl_cons]
    obtain ⟨hhead, htail⟩ : (∀ x ∈ rest, ¬ x.display = t.display) ∧
        (rest.map SkillItem.display).Nodup := by simpa using hnd
    rcases List.mem_cons.mp hs with rfl | hs'
    · have hsel : selCourses ac m st s = [] := by
        unfold selCourses
        have hfil : (ac.filter (assignedTo m s.keyword)).filter
            (fun c => !(st.1.contains c.id)) = [] := by
          rw [List.filter_eq_nil_iff]
          intro c hc
          have hc2 := List.mem_filter.mp hc
          have howner := (assignedTo_iff m s.keyword c).mp hc2.2
          rcases hown c hc2.1 with hno | hin
          · exact absurd howner hno
          · simp [hinv.1 c.id hin]
        rw [hfil]
        rfl
      rw [foldl_lookup_unchanged ac m rest s.display (fun u hu => hhead u hu)]
      rw [matchStep_eq, hsel, lookup_jsMapSet_self]
    · exact ih hs' htail _ (matchStep_inv ac m t hinv)

/-- C2: Course Matcher postconditions.  Under the database invariant
that course ids are pairwise distinct: every course returned under a
skill display has that skill's keyword in the course's keyword list
under case-insensitive exact match, and no returned list has more than
5 courses; every input skill's display name is present as a key of the
result object; and (for distinct display names) a skill whose keyword
owns no course that is unused at entry maps to an empty list that is
still present as a key. -/
theorem courseMatcher_postconditions (skills : List SkillItem)
    (ac : List Course) (used0 : List Nat)
    (hnd : (ac.map Course.id).Nodup) :
    (∀ p ∈ (matchCoursesForSkills skills ac used0).2,
      p.2.length ≤ 5 ∧
      ∀ c ∈ p.2, ∃ s ∈ skills, s.display = p.1 ∧
        ∃ kw ∈ c.keywords, lowerStr kw = lowerStr s.keyword) ∧
    (∀ s ∈ skills,
      (((matchCoursesForSkills skills ac used0).2).lookup s.display).isSome) ∧
    ((skills.map SkillItem.display).Nodup →
      ∀ s ∈ skills,
      (∀ c ∈ ac,
        ownerKeyword (courseToSkillMap skills ac) c.id ≠ some s.keyword ∨
        c.id ∈ used0) →
      ((matchCoursesForSkills skills ac used0).2).lookup s.display = some []) := by
  have hinit : StateInv used0 ((used0, []) : List Nat × SkillCourses) :=
    ⟨fun x hx => hx, by simp, by simp, by simp⟩
  refine ⟨?_, ?_, ?_⟩
  · intro p hp
    by_cases hemp : skills = []
    · rw [hemp] at hp
      simp [matchCoursesForSkills] at hp
    · have hunf : (matchCoursesForSkills skills ac used0).2 =
          (skills.foldl (matchStep ac (courseToSkillMap skills ac))
            (used0, [])).2 := by
        unfold matchCoursesForSkills
        rw [if_neg hemp]
      rw [hunf] at hp
      have hro := @foldl_resultOk skills (courseToSkillMap skills ac) ac skills
        (fun s hs => hs) ((used0, [])) (by intro q hq; cases hq)
      obtain ⟨hlen, s, hsmem, hdisp, hall⟩ := hro p hp
      refine ⟨hlen, ?_⟩
      intro c hc
      obtain ⟨hcac, hown⟩ := (hall c hc)
      obtain ⟨c', hc'ac, hc'id, b, hbmem, hbkw, hhas⟩ :=
        courseToSkillMap_sound skills ac c.id s.keyword hown
      have hcc : c' = c := List.inj_on_of_nodup_map hnd hc'ac hcac hc'id
      subst hcc
      unfold courseHasKeyword at hhas
      rw [List.any_eq_true] at hhas
      obtain ⟨kw, hkwmem, hkweq⟩ := hhas
      rw [decide_eq_true_eq] at hkweq
      refine ⟨s, hsmem, hdisp, kw, hkwmem, ?_⟩
      have hlow : lowerStr s.keyword = s.keyword := by
        rw [← hbkw, ← hkweq, lowerStr_idem]
      rw [hlow, hkweq, hbkw]
  · intro s hs
    have hemp : skills ≠ [] := fun h => by rw [h] at hs; cases hs
    have hunf : (matchCoursesForSkills skills ac used0).2 =
        (skills.foldl (matchStep ac (courseToSkillMap skills ac))
          (used0, [])).2 := by
      unfold matchCoursesForSkills
      rw [if_neg hemp]
    rw [hunf]
    exact foldl_lookup_isSome ac _ skills hs (used0, [])
  · intro hdisp s hs hown
    have hemp : skills ≠ [] := fun h => by rw [h] at hs; cases hs
    have hunf : (matchCoursesForSkills skills ac used0).2 =
        (skills.foldl (matchStep ac (courseToSkillMap skills ac))
          (used0, [])).2 := by
      unfold matchCoursesForSkills
      rw [if_neg hemp]
    rw [hunf]
    exact foldl_zero_owned ac _ hown skills hs hdisp (used0, []) hinit

/-- Witness for C2 at a concrete skill list and course table. -/
theorem courseMatcher_postconditions_witness :
    (∀ p ∈ (matchCoursesForSkills [⟨codes "React", codes "react", 90⟩]
        [⟨1, codes "c1", [codes "React"]⟩] []).2,
      p.2.length ≤ 5 ∧
      ∀ c ∈ p.2, ∃ s ∈ [(⟨codes "React", codes "react", 90⟩ : SkillItem)],
        s.display = p.1 ∧
        ∃ kw ∈ c.keywords, lowerStr kw = lowerStr s.keyword) ∧
    (∀ s ∈ [(⟨codes "React", codes "react", 90⟩ : SkillItem)],
      (((matchCoursesForSkills [⟨codes "React", codes "react", 90⟩]
        [⟨1, codes "c1", [codes "React"]⟩] []).2).lookup s.display).isSome) ∧
    (([(⟨codes "React", codes "react", 90⟩ : SkillItem)].map
        SkillItem.display).Nodup →
      ∀ s ∈ [(⟨codes "React", codes "react", 90⟩ : SkillItem)],
      (∀ c ∈ [(⟨1, codes "c1", [codes "React"]⟩ : Course)],
        ownerKeyword (courseToSkillMap [⟨codes "React", codes "react", 90⟩]
          [⟨1, codes "c1", [codes "React"]⟩]) c.id ≠ some s.keyword ∨
        c.id ∈ ([] : List Nat)) →
      ((matchCoursesForSkills [⟨codes "React", codes "react", 90⟩]
        [⟨1, codes "c1", [codes "React"]⟩] []).2).lookup s.display = some []) :=
  courseMatcher_postconditions [⟨codes "React", codes "react", 90⟩]
    [⟨1, codes "c1", [codes "React"]⟩] [] (by decide)

end Skilltri

